import Mathlib

/-! Roadmap task manager (`app.js`): a shallow embedding and its verified properties.

The module-level variables of `app.js` (`projects`, `currentProjectId`,
`draggedIndex`) are threaded explicitly; the DOM subtree built by `render` is a
list of `Node`s (the children appended to `tasksContainer`, in order); `Date.now()`,
the time-zone offset, the answer of `confirm` and of `prompt` and the value of the
title input are arguments of the handler that reads them.
-/

namespace Roadmap

/-! ## Data model -/

/-- A calendar date as the `<input type="date">` value `YYYY-MM-DD` denotes it. -/
structure CivilDate where
  year : Int
  month : Int
  day : Int
deriving DecidableEq

/-- A task `{ id, title, done }` as pushed by `handleSubmit`. -/
structure Task where
  id : Int
  title : String
  done : Bool
deriving DecidableEq

/-- A project `{ id, name, deadline, tasks }` as built by `createProject`;
`deadline = none` stands for the empty string `''`. -/
structure Project where
  id : Int
  name : String
  deadline : Option CivilDate
  tasks : List Task
deriving DecidableEq

/-- The two module-level variables `projects` and `currentProjectId`. -/
structure AppState where
  projects : List Project
  currentProjectId : Int
deriving DecidableEq

/-- The function `getCurrentProject`: `projects.find(p => p.id === currentProjectId)`. -/
def getCurrentProject (s : AppState) : Option Project :=
  s.projects.find? (fun p => p.id == s.currentProjectId)

/-! ## `render` -/

/-- An arrow element (`div.arrow.down` or `span.arrow`); `className` is kept as the
list of its space-separated tokens. -/
structure ArrowEl where
  className : List String
  textContent : String
deriving DecidableEq

/-- The `div.task` element `el` of one task: class tokens, `draggable`,
`dataset.index` and the text of its `span.title`. -/
structure TaskEl where
  className : List String
  draggable : Bool
  dataIndex : Nat
  title : String
deriving DecidableEq

/-- A child appended to `tasksContainer`: a down arrow, a bare task element, or a
`div.task-wrapper` holding a task element followed by a horizontal arrow. -/
inductive Node where
  | arrow (a : ArrowEl)
  | task (el : TaskEl)
  | wrapper (className : List String) (el : TaskEl) (arrow : ArrowEl)
deriving DecidableEq

/-- The constant `cols` of `render`. -/
def cols : Nat := 5

/-- The search loop of `Array.prototype.findIndex`, from position `k` on. -/
def findIndexFrom {α : Type} (p : α → Bool) : List α → Nat → Int
  | [], _ => -1
  | a :: as, k => if p a then (k : Int) else findIndexFrom p as (k + 1)

/-- `Array.prototype.findIndex`: the first index whose element satisfies `p`, else `-1`. -/
def findIndex {α : Type} (p : α → Bool) (l : List α) : Int :=
  findIndexFrom p l 0

/-- `Array.prototype.forEach` with the element index, threading the state the
callback mutates. -/
def forEachFrom {α σ : Type} (f : σ → α → Nat → σ) : List α → Nat → σ → σ
  | [], _, s => s
  | a :: as, i, s => forEachFrom f as (i + 1) (f s a i)

/-- One call of the `forEach` callback of `render`: `container` is the list of
children of `tasksContainer` so far. -/
def renderStep (tasks : List Task) (container : List Node) (task : Task) (index : Nat) :
    List Node :=
  let row := index / cols
  let colInRow := index % cols
  let isReverse := row % 2 == 1
  let container :=
    if colInRow == 0 && decide (row > 0) then
      container ++ [Node.arrow
        { className := ["arrow", "down"] ++ (if isReverse then [] else ["left"]),
          textContent := "↓" }]
    else container
  let firstUndoneIndex := findIndex (fun t => !t.done) tasks
  let isCurrent := !task.done && ((index : Int) == firstUndoneIndex)
  let el : TaskEl :=
    { className := ["task"] ++ (if task.done then ["done"] else [])
        ++ (if isCurrent then ["current"] else []),
      draggable := true,
      dataIndex := index,
      title := task.title }
  let isLastInRow := colInRow == cols - 1 || ((index : Int) == (tasks.length : Int) - 1)
  if !isLastInRow then
    container ++ [Node.wrapper (["task-wrapper"] ++ (if isReverse then ["reverse"] else []))
      el { className := ["arrow"], textContent := if isReverse then "←" else "→" }]
  else
    container ++ [Node.task el]

/-- The body of `render` once the project is found: `tasksContainer.innerHTML = ''`
followed by `tasks.forEach(...)`. -/
def renderTasks (tasks : List Task) : List Node :=
  forEachFrom (renderStep tasks) tasks 0 []

/-- The function `render`: the children of `tasksContainer` afterwards (unchanged when
there is no current project). -/
def render (s : AppState) (tasksContainer : List Node) : List Node :=
  match getCurrentProject s with
  | none => tasksContainer
  | some project => renderTasks project.tasks

/-! ### Reading the rendered tree -/

/-- The task element a child carries, if any. -/
def Node.el? : Node → Option TaskEl
  | .arrow _ => none
  | .task el => some el
  | .wrapper _ el _ => some el

/-- The task elements of the rendered tree, in document order. -/
def taskEls (out : List Node) : List TaskEl :=
  out.filterMap Node.el?

/-- A task element is marked current when its class tokens include `current`. -/
def TaskEl.isCurrent (el : TaskEl) : Bool :=
  el.className.contains "current"

/-- The vertical connectors: the arrows appended directly to the container. -/
def downArrows (out : List Node) : List ArrowEl :=
  out.filterMap (fun nd => match nd with
    | .arrow a => some a
    | _ => none)

/-- The texts of the horizontal connectors (the arrows inside wrappers), in order. -/
def horizontalArrows (out : List Node) : List String :=
  out.filterMap (fun nd => match nd with
    | .wrapper _ _ a => some a.textContent
    | _ => none)

/-- The horizontal connector emitted right after the task element with
`dataset.index = i` (the arrow of its wrapper), if there is one. -/
def horizontalAfter (out : List Node) (i : Nat) : Option String :=
  match out.find? (fun nd => (nd.el?.map TaskEl.dataIndex) == some i) with
  | some (.wrapper _ _ a) => some a.textContent
  | _ => none

/-- The nodes one callback call appends. -/
def emitted (tasks : List Task) (task : Task) (index : Nat) : List Node :=
  renderStep tasks [] task index

/-- The nodes appended for the tasks `l`, the first of which has index `i`. -/
def emittedFrom (tasks : List Task) : List Task → Nat → List Node
  | [], _ => []
  | t :: l, i => emitted tasks t i ++ emittedFrom tasks l (i + 1)

/-- The task element built for `task` at `index`. -/
def elOf (tasks : List Task) (task : Task) (index : Nat) : TaskEl :=
  { className := ["task"] ++ (if task.done then ["done"] else [])
      ++ (if (!task.done && ((index : Int) == findIndex (fun t => !t.done) tasks))
          then ["current"] else []),
    draggable := true,
    dataIndex := index,
    title := task.title }

/-- The down arrow a row start appends. -/
def downArrowOf (index : Nat) : ArrowEl :=
  { className := ["arrow", "down"] ++ (if (index / cols) % 2 == 1 then [] else ["left"]),
    textContent := "↓" }

/-- The node holding the task element of `task` at `index`. -/
def taskNodeOf (tasks : List Task) (task : Task) (index : Nat) : Node :=
  if index % cols = cols - 1 ∨ (index : Int) = (tasks.length : Int) - 1 then
    Node.task (elOf tasks task index)
  else
    Node.wrapper (["task-wrapper"] ++ (if (index / cols) % 2 == 1 then ["reverse"] else []))
      (elOf tasks task index)
      { className := ["arrow"], textContent := if (index / cols) % 2 == 1 then "←" else "→" }

/-! ## Drag-and-drop reorder -/

/-- `Array.prototype.splice(start, deleteCount, ...items)` on integer arguments: the
array of removed elements and the array afterwards. -/
def splice {β : Type} (arr : List β) (start deleteCount : Int) (items : List β) :
    List β × List β :=
  let len : Int := arr.length
  let actualStart : Int := if start < 0 then max (len + start) 0 else min start len
  let actualDeleteCount : Int := min (max deleteCount 0) (len - actualStart)
  let k := actualStart.toNat
  let d := actualDeleteCount.toNat
  ((arr.drop k).take d, arr.take k ++ items ++ arr.drop (k + d))

/-- The `dragstart` handler of the task element at `index`: the new `draggedIndex`. -/
def dragstart (index : Int) : Option Int := some index

/-- The `dragend` handler: `draggedIndex = null`. -/
def dragend : Option Int := none

/-- The `drop` handler of the task element at `index`: the array `tasks` afterwards.
An array entry is `some v` or `none` for `undefined` (what `const [moved] = []` binds);
`draggedIndex = none` is `null`. -/
def dropHandler {α : Type} (tasks : List (Option α)) (draggedIndex : Option Int)
    (index : Int) : List (Option α) :=
  match draggedIndex with
  | none => tasks
  | some dragged =>
    if dragged ≠ index then
      let r := splice tasks dragged 1 []
      let moved : Option α := r.1.head?.getD none
      (splice r.2 index 0 [moved]).2
    else tasks

/-- The state a drag acts on: the array `tasks` of the current project, the module
variable `draggedIndex`, and whether the browser has a drag of a task element under
way. -/
structure DragState where
  tasks : List (Option Task)
  draggedIndex : Option Int
  dragging : Bool
deriving DecidableEq

/-- The events that reach the handlers of the rendered task elements. `dragstart`,
`drop` and `dragend` carry the `forEach` index of the element they fire on; `other` is
any other handler run to completion, leaving the task list `tasks` and rendering it
again. -/
inductive DragEvent where
  | dragstart (index : Nat)
  | drop (index : Nat)
  | dragend
  | other (tasks : List (Option Task))
deriving DecidableEq

/-- When the browser delivers an event, following the drag-and-drop processing of
HTML: an element of that index is rendered (`render` runs after every change of the
list, so the rendered indices are those of `tasks`); a drag starts only when none is
under way and ends, with `dragend`, only when one is; while a drag is under way no
other input event is delivered. A `drop` with no drag of a task element under way is
the drop of something dragged from elsewhere. -/
def DragEvent.enabled (st : DragState) : DragEvent → Bool
  | .dragstart index => !st.dragging && decide (index < st.tasks.length)
  | .drop index => decide (index < st.tasks.length)
  | .dragend => st.dragging
  | .other _ => !st.dragging

/-- The handler an event runs. -/
def DragState.step (st : DragState) : DragEvent → DragState
  | .dragstart index => { st with draggedIndex := dragstart index, dragging := true }
  | .drop index => { st with tasks := dropHandler st.tasks st.draggedIndex index }
  | .dragend => { st with draggedIndex := dragend, dragging := false }
  | .other tasks => { st with tasks := tasks }

/-- The state after a sequence of events, `none` when one of them cannot be delivered. -/
def DragState.run (st : DragState) : List DragEvent → Option DragState
  | [] => some st
  | e :: es => if e.enabled st then (st.step e).run es else none

/-- The state after `init`: `let draggedIndex = null` and no drag under way. -/
def DragState.initial (tasks : List (Option Task)) : DragState :=
  { tasks := tasks, draggedIndex := none, dragging := false }

/-- The indices a drop can meet are in range: outside a drag `draggedIndex` is `null`,
and a recorded `draggedIndex` is an index of the task list. -/
def DragState.IndexInRange (st : DragState) : Prop :=
  (st.dragging = false → st.draggedIndex = none) ∧
  ∀ s : Int, st.draggedIndex = some s → 0 ≤ s ∧ s < (st.tasks.length : Int)

/-! ## Project and task handlers -/

/-- What a handler call leaves behind: the module state, the message of `alert` if it
was called, and whether an uncaught `TypeError` ended the call. -/
structure HandlerResult where
  state : AppState
  alert : Option String
  threw : Bool
deriving DecidableEq

/-- The function `createProject(name)`, with `now` the value `Date.now()` returns. -/
def createProject (s : AppState) (name : String) (now : Int) : AppState :=
  let project : Project := { id := now, name := name, deadline := none, tasks := [] }
  { projects := s.projects ++ [project], currentProjectId := project.id }

/-- The function `handleDeleteProject`, with `confirmAnswer` what `confirm` returns
when it is reached. `projects[0].id` on an empty array throws a `TypeError`, after the
assignment to `projects` took effect. -/
def handleDeleteProject (s : AppState) (confirmAnswer : Bool) : HandlerResult :=
  if s.projects.length ≤ 1 then
    { state := s, alert := some "最後のプロジェクトは削除できません", threw := false }
  else if !confirmAnswer then
    { state := s, alert := none, threw := false }
  else
    let projects := s.projects.filter (fun p => p.id != s.currentProjectId)
    match projects with
    | [] => { state := { s with projects := projects }, alert := none, threw := true }
    | p :: _ =>
      { state := { projects := projects, currentProjectId := p.id }, alert := none,
        threw := false }

/-- In-place mutation of the object `find` returns: the first element satisfying `p`
is replaced by its image under `f`. -/
def updateFirst {α : Type} (p : α → Bool) (f : α → α) : List α → List α
  | [] => []
  | a :: as => if p a then f a :: as else a :: updateFirst p f as

/-- The code points `String.prototype.trim` strips (ECMAScript WhiteSpace and
LineTerminator). -/
def isJsWhiteSpace (c : Char) : Bool :=
  c.val == 0x09 || c.val == 0x0A || c.val == 0x0B || c.val == 0x0C || c.val == 0x0D ||
  c.val == 0x20 || c.val == 0xA0 || c.val == 0x1680 ||
  (0x2000 ≤ c.val && c.val ≤ 0x200A) ||
  c.val == 0x2028 || c.val == 0x2029 || c.val == 0x202F || c.val == 0x205F ||
  c.val == 0x3000 || c.val == 0xFEFF

/-- `String.prototype.trim`. -/
def jsTrim (str : String) : String :=
  ⟨((str.data.dropWhile isJsWhiteSpace).reverse.dropWhile isJsWhiteSpace).reverse⟩

/-- The function `handleSubmit`, with `titleInputValue` the value of the title input
and `now` the value `Date.now()` returns. -/
def handleSubmit (s : AppState) (titleInputValue : String) (now : Int) : AppState :=
  match getCurrentProject s with
  | none => s
  | some _ =>
    let push : Project → Project := fun project =>
      { project with
        tasks := project.tasks ++ [{ id := now, title := jsTrim titleInputValue, done := false }] }
    { s with projects := updateFirst (fun p => p.id == s.currentProjectId) push s.projects }

/-- The function `editTask(id)`, with `promptAnswer` what `prompt` returns (`none` for
`null`, a cancelled prompt). -/
def editTask (s : AppState) (id : Int) (promptAnswer : Option String) : AppState :=
  match getCurrentProject s with
  | none => s
  | some project =>
    match project.tasks.find? (fun t => t.id == id) with
    | none => s
    | some _ =>
      match promptAnswer with
      | none => s
      | some newTitle =>
        if jsTrim newTitle ≠ "" then
          let retitle : Task → Task := fun task => { task with title := jsTrim newTitle }
          let edit : Project → Project := fun project =>
            { project with tasks := updateFirst (fun t => t.id == id) retitle project.tasks }
          { s with projects := updateFirst (fun p => p.id == s.currentProjectId) edit s.projects }
        else s

/-! ## Deadline countdown -/

/-- The constant `1000 * 60 * 60 * 24` of `updateDaysLeft`. -/
def msPerDay : Int := 1000 * 60 * 60 * 24

/-- Day number of a Gregorian calendar date, counted from 1970-01-01. -/
def daysFromCivil (d : CivilDate) : Int :=
  let y := if d.month ≤ 2 then d.year - 1 else d.year
  let era := y / 400
  let yoe := y - era * 400
  let mp := if d.month > 2 then d.month - 3 else d.month + 9
  let doy := (153 * mp + 2) / 5 + d.day - 1
  let doe := yoe * 365 + yoe / 4 - yoe / 100 + doy
  era * 146097 + doe - 719468

/-- The time value of `new Date('YYYY-MM-DD')`: a date-only string is read as midnight
UTC of that date. -/
def dateParse (d : CivilDate) : Int :=
  daysFromCivil d * msPerDay

/-- The local time zone of the browser. `offsetAtUtc t` is local time minus UTC, in
milliseconds, in force at the UTC time value `t`; `offsetAtLocal u` is the offset in
force at the local time value `u` (the two differ around a change of offset). -/
structure TimeZone where
  offsetAtUtc : Int → Int
  offsetAtLocal : Int → Int

/-- A zone whose offset never changes. -/
def fixedZone (tz : Int) : TimeZone :=
  { offsetAtUtc := fun _ => tz, offsetAtLocal := fun _ => tz }

/-- The time value after `today.setHours(0, 0, 0, 0)`: `now` is taken to local time,
its time within the day is set to zero, and the result is taken back to UTC with the
offset in force at that local midnight. -/
def setHoursZero (now : Int) (tz : TimeZone) : Int :=
  let localNow := now + tz.offsetAtUtc now
  let localMidnight := localNow / msPerDay * msPerDay
  localMidnight - tz.offsetAtLocal localMidnight

/-- `Math.ceil(a / b)` for integers `a` and `b > 0`. -/
def ceilDiv (a b : Int) : Int :=
  -((-a) / b)

/-- The template texts `updateDaysLeft` writes. -/
inductive DaysLeftText where
  | empty                   -- ''
  | overdue (n : Int)       -- n日超過
  | today                   -- 今日まで!
  | remaining (n : Int)     -- あとn日
deriving DecidableEq

/-- The element `daysLeftSpan`: its text and its class tokens. -/
structure DaysLeftSpan where
  textContent : DaysLeftText
  className : List String
deriving DecidableEq

/-- The value `diffDays` of `updateDaysLeft`. -/
def diffDays (deadline : CivilDate) (now : Int) (tz : TimeZone) : Int :=
  let today := setHoursZero now tz
  let deadlineDate := dateParse deadline
  let diffTime := deadlineDate - today
  ceilDiv diffTime msPerDay

/-- The function `updateDaysLeft`, with `now` the time value of `new Date()` and `tz`
the local time zone. -/
def updateDaysLeft (s : AppState) (now : Int) (tz : TimeZone) : DaysLeftSpan :=
  match (getCurrentProject s).bind Project.deadline with
  | none => { textContent := .empty, className := ["days-left"] }
  | some deadline =>
    let diffDays := diffDays deadline now tz
    if diffDays < 0 then
      { textContent := .overdue (Int.natAbs diffDays), className := ["days-left", "urgent"] }
    else if diffDays = 0 then
      { textContent := .today, className := ["days-left", "urgent"] }
    else if diffDays ≤ 3 then
      { textContent := .remaining diffDays, className := ["days-left", "warning"] }
    else
      { textContent := .remaining diffDays, className := ["days-left", "safe"] }

/-! ## Lemmas on `render` -/

theorem renderStep_eq_append (tasks : List Task) (c : List Node) (t : Task) (i : Nat) :
    renderStep tasks c t i = c ++ emitted tasks t i := by
  unfold emitted renderStep
  simp only []
  split <;> split <;> simp

theorem forEachFrom_renderStep (tasks : List Task) (l : List Task) (i : Nat) (c : List Node) :
    forEachFrom (renderStep tasks) l i c = c ++ emittedFrom tasks l i := by
  induction l generalizing i c with
  | nil => simp [forEachFrom, emittedFrom]
  | cons t l ih =>
    simp only [forEachFrom, emittedFrom]
    rw [ih, renderStep_eq_append, List.append_assoc]

theorem renderTasks_eq (T : List Task) : renderTasks T = emittedFrom T T 0 := by
  simp [renderTasks, forEachFrom_renderStep]

theorem render_eq_renderTasks (s : AppState) (c : List Node) (project : Project)
    (h : getCurrentProject s = some project) : render s c = renderTasks project.tasks := by
  simp [render, h]

theorem emitted_eq (tasks : List Task) (t : Task) (i : Nat) :
    emitted tasks t i =
      (if i % cols = 0 ∧ 0 < i / cols then [Node.arrow (downArrowOf i)] else [])
        ++ [taskNodeOf tasks t i] := by
  unfold emitted renderStep taskNodeOf downArrowOf elOf
  simp only [Bool.and_eq_true, beq_iff_eq, decide_eq_true_eq, Bool.or_eq_true,
    Bool.not_eq_true', Bool.or_eq_false_iff, beq_eq_false_iff_ne, ne_eq, List.nil_append]
  split_ifs <;> first | rfl | (exfalso; tauto)

theorem taskNodeOf_el (tasks : List Task) (t : Task) (i : Nat) :
    (taskNodeOf tasks t i).el? = some (elOf tasks t i) := by
  unfold taskNodeOf
  split <;> rfl

theorem el?_arrow (a : ArrowEl) : (Node.arrow a).el? = none := rfl

theorem taskEls_append (xs ys : List Node) : taskEls (xs ++ ys) = taskEls xs ++ taskEls ys := by
  simp [taskEls, List.filterMap_append]

theorem taskEls_emitted (tasks : List Task) (t : Task) (i : Nat) :
    taskEls (emitted tasks t i) = [elOf tasks t i] := by
  rw [emitted_eq]
  split <;> simp [taskEls, List.filterMap_cons, taskNodeOf_el, el?_arrow]

theorem taskEls_emittedFrom (tasks : List Task) (l : List Task) (i : Nat) :
    taskEls (emittedFrom tasks l i) = (l.enumFrom i).map (fun p => elOf tasks p.2 p.1) := by
  induction l generalizing i with
  | nil => simp [emittedFrom, taskEls]
  | cons t l ih =>
    simp [emittedFrom, taskEls_append, taskEls_emitted, ih, List.enumFrom_cons]

theorem taskEls_renderTasks (T : List Task) :
    taskEls (renderTasks T) = T.enum.map (fun p => elOf T p.2 p.1) := by
  rw [renderTasks_eq, taskEls_emittedFrom]; rfl

theorem elOf_isCurrent (tasks : List Task) (t : Task) (i : Nat) :
    (elOf tasks t i).isCurrent
      = (!t.done && ((i : Int) == findIndex (fun t => !t.done) tasks)) := by
  unfold elOf TaskEl.isCurrent
  cases t.done <;> cases ((i : Int) == findIndex (fun t => !t.done) tasks) <;> simp

theorem findIndexFrom_spec {α : Type} (p : α → Bool) (l : List α) (k : Nat) :
    (findIndexFrom p l k = -1 ∧ ∀ a ∈ l, p a = false) ∨
    (∃ (j : Nat) (a : α), l[j]? = some a ∧ findIndexFrom p l k = ((k + j : Nat) : Int) ∧
        p a = true ∧
        ∀ j2 b, j2 < j → l[j2]? = some b → p b = false) := by
  induction l generalizing k with
  | nil => left; simp [findIndexFrom]
  | cons a l ih =>
    by_cases ha : p a = true
    · right
      refine ⟨0, a, by simp, by simp [findIndexFrom, ha], ha, ?_⟩
      intro j2 b h; omega
    · simp only [Bool.not_eq_true] at ha
      rcases ih (k + 1) with ⟨h1, h2⟩ | ⟨j, b, h1, h2, h3, h4⟩
      · left
        refine ⟨by simp [findIndexFrom, ha, h1], ?_⟩
        intro x hx
        rcases List.mem_cons.mp hx with rfl | hx
        · exact ha
        · exact h2 x hx
      · right
        refine ⟨j + 1, b, by simpa using h1, ?_, h3, ?_⟩
        · simp only [findIndexFrom, ha, Bool.false_eq_true, if_false, h2]
          congr 1; omega
        · intro j2 c hj hc
          cases j2 with
          | zero => simp at hc; subst hc; exact ha
          | succ j2 =>
            simp only [List.getElem?_cons_succ] at hc
            exact h4 j2 c (by omega) hc

theorem findIndex_spec {α : Type} (p : α → Bool) (l : List α) :
    (findIndex p l = -1 ∧ ∀ a ∈ l, p a = false) ∨
    (∃ (j : Nat) (a : α), l[j]? = some a ∧ findIndex p l = (j : Int) ∧ p a = true ∧
        ∀ j2 b, j2 < j → l[j2]? = some b → p b = false) := by
  have h := findIndexFrom_spec p l 0
  simpa [findIndex] using h

theorem mem_taskEls_renderTasks (T : List Task) (el : TaskEl) :
    el ∈ taskEls (renderTasks T) ↔ ∃ (i : Nat) (t : Task), T[i]? = some t ∧ el = elOf T t i := by
  rw [taskEls_renderTasks, List.mem_map]
  constructor
  · rintro ⟨⟨i, t⟩, hm, rfl⟩
    exact ⟨i, t, List.mk_mem_enum_iff_getElem?.mp hm, rfl⟩
  · rintro ⟨i, t, h, rfl⟩
    exact ⟨(i, t), List.mk_mem_enum_iff_getElem?.mpr h, rfl⟩

theorem nodup_const_length_le_one {l : List Nat} (hn : l.Nodup) (c : Nat)
    (h : ∀ x ∈ l, x = c) : l.length ≤ 1 := by
  match l, hn, h with
  | [], _, _ => simp
  | [_], _, _ => simp
  | x :: y :: l, hn, h =>
    have hx := h x (by simp)
    have hy := h y (by simp)
    simp only [List.nodup_cons, List.mem_cons, not_or] at hn
    exact absurd (hx.trans hy.symm) hn.1.1

/-- C1: in the tree `render` builds, the task elements carry the indices `0 .. n-1` in
order, at most one of them is marked `current`, one is marked iff some task has
`done = false`, and a marked element is that of the smallest index whose task is not
done. -/
theorem render_current_task (T : List Task) :
    (taskEls (renderTasks T)).map TaskEl.dataIndex = List.range T.length ∧
    ((taskEls (renderTasks T)).filter TaskEl.isCurrent).length ≤ 1 ∧
    ((∃ el ∈ taskEls (renderTasks T), el.isCurrent = true) ↔ ∃ t ∈ T, t.done = false) ∧
    (∀ el ∈ taskEls (renderTasks T), el.isCurrent = true →
      ∃ t, T[el.dataIndex]? = some t ∧ t.done = false ∧ el.title = t.title ∧
        ∀ (j : Nat) (u : Task), j < el.dataIndex → T[j]? = some u → u.done = true) := by
  have hidx : (taskEls (renderTasks T)).map TaskEl.dataIndex = List.range T.length := by
    rw [taskEls_renderTasks, List.map_map]
    have : (TaskEl.dataIndex ∘ fun p : Nat × Task => elOf T p.2 p.1) = Prod.fst := by
      funext p; rfl
    rw [this, List.enum_map_fst]
  refine ⟨hidx, ?_, ?_, ?_⟩
  · have hsub : (((taskEls (renderTasks T)).filter TaskEl.isCurrent).map TaskEl.dataIndex).Sublist
        (List.range T.length) := by
      rw [← hidx]
      exact List.Sublist.map _ (List.filter_sublist _)
    have hnd := hsub.nodup (List.nodup_range _)
    have hc : ∀ x ∈ ((taskEls (renderTasks T)).filter TaskEl.isCurrent).map TaskEl.dataIndex,
        x = (findIndex (fun t : Task => !t.done) T).toNat := by
      intro x hx
      obtain ⟨el, hel, rfl⟩ := List.mem_map.mp hx
      obtain ⟨hmem, hcur⟩ := List.mem_filter.mp hel
      obtain ⟨i, t, _, rfl⟩ := (mem_taskEls_renderTasks T el).mp hmem
      rw [elOf_isCurrent] at hcur
      simp only [Bool.and_eq_true, beq_iff_eq] at hcur
      show i = _
      rw [← hcur.2]; simp
    have := nodup_const_length_le_one hnd _ hc
    simpa using this
  · constructor
    · rintro ⟨el, hmem, hcur⟩
      obtain ⟨i, t, hit, rfl⟩ := (mem_taskEls_renderTasks T el).mp hmem
      rw [elOf_isCurrent] at hcur
      simp only [Bool.and_eq_true, Bool.not_eq_true', beq_iff_eq] at hcur
      exact ⟨t, List.getElem?_mem hit, hcur.1⟩
    · rintro ⟨t, ht, hd⟩
      rcases findIndex_spec (fun t : Task => !t.done) T with ⟨_, hall⟩ | ⟨j, a, hja, hf, hpa, _⟩
      · have := hall t ht
        simp [hd] at this
      · refine ⟨elOf T a j, (mem_taskEls_renderTasks T _).mpr ⟨j, a, hja, rfl⟩, ?_⟩
        rw [elOf_isCurrent, hf]
        simpa using hpa
  · intro el hmem hcur
    obtain ⟨i, t, hit, rfl⟩ := (mem_taskEls_renderTasks T el).mp hmem
    rw [elOf_isCurrent] at hcur
    simp only [Bool.and_eq_true, Bool.not_eq_true', beq_iff_eq] at hcur
    refine ⟨t, hit, hcur.1, rfl, ?_⟩
    intro j u hj hu
    rcases findIndex_spec (fun t : Task => !t.done) T with ⟨hneg, _⟩ | ⟨k, a, _, hf, _, hbefore⟩
    · rw [hneg] at hcur; omega
    · have hik : i = k := by
        have := hcur.2; rw [hf] at this; exact_mod_cast this
      subst hik
      have := hbefore j u hj hu
      simpa using this

/-- Witness of C1 on `[A(done), B(undone), C(undone)]`: exactly the element of `B`
(index 1) is marked current. -/
theorem render_current_task_witness :
    (taskEls (renderTasks [⟨1, "A", true⟩, ⟨2, "B", false⟩, ⟨3, "C", false⟩])).map
        TaskEl.isCurrent = [false, true, false] ∧
    ((taskEls (renderTasks [⟨1, "A", true⟩, ⟨2, "B", false⟩, ⟨3, "C", false⟩])).filter
        TaskEl.isCurrent).length ≤ 1 :=
  ⟨by decide, (render_current_task [⟨1, "A", true⟩, ⟨2, "B", false⟩, ⟨3, "C", false⟩]).2.1⟩

/-! ### Vertical connectors -/

theorem taskNodeOf_ne_arrow (tasks : List Task) (t : Task) (i : Nat) (a : ArrowEl) :
    taskNodeOf tasks t i ≠ Node.arrow a := by
  intro h
  have := taskNodeOf_el tasks t i
  rw [h] at this
  exact absurd this (by simp [Node.el?])

theorem downArrows_append (xs ys : List Node) :
    downArrows (xs ++ ys) = downArrows xs ++ downArrows ys := by
  simp [downArrows, List.filterMap_append]

theorem downArrows_emitted_length (tasks : List Task) (t : Task) (i : Nat) :
    (downArrows (emitted tasks t i)).length = if i % cols = 0 ∧ 0 < i / cols then 1 else 0 := by
  rw [emitted_eq]
  have h : downArrows [taskNodeOf tasks t i] = [] := by
    unfold taskNodeOf
    split <;> simp [downArrows, List.filterMap_cons]
  split
  · rw [downArrows_append, h]; simp [downArrows, List.filterMap_cons]
  · rw [downArrows_append, h]; simp [downArrows]

theorem downArrows_emittedFrom_length (tasks : List Task) (l : List Task) (i : Nat) :
    (downArrows (emittedFrom tasks l i)).length + ((i + 4) / 5 - 1)
      = (i + l.length + 4) / 5 - 1 := by
  induction l generalizing i with
  | nil => simp [emittedFrom, downArrows]
  | cons t l ih =>
    have h := ih (i + 1)
    simp only [emittedFrom, downArrows_append, List.length_append, downArrows_emitted_length,
      List.length_cons, cols]
    split <;> omega

theorem ceil_div_cols (n : Nat) : ⌈(n : ℚ) / (cols : ℚ)⌉ = (((n + 4) / 5 : Nat) : Int) := by
  have h1 := Nat.div_add_mod (n + 4) 5
  have h2 := Nat.mod_lt (n + 4) (show 5 > 0 by norm_num)
  generalize (n + 4) / 5 = q at h1 ⊢
  generalize (n + 4) % 5 = r at h1 h2
  rw [Int.ceil_eq_iff]
  have h3 : ((n : ℚ) + 4) = 5 * (q : ℚ) + (r : ℚ) := by exact_mod_cast h1.symm
  have h4 : (r : ℚ) ≤ 4 := by exact_mod_cast Nat.lt_succ_iff.mp h2
  have h5 : (0 : ℚ) ≤ (r : ℚ) := by positivity
  have hc : ((cols : Nat) : ℚ) = 5 := by norm_num [cols]
  rw [hc]
  push_cast
  constructor
  · rw [lt_div_iff₀ (by norm_num)]; linarith
  · rw [div_le_iff₀ (by norm_num)]; linarith

theorem emittedFrom_arrow_followed (tasks : List Task) (l : List Task) (i p : Nat)
    (a : ArrowEl) (h : (emittedFrom tasks l i)[p]? = some (Node.arrow a)) :
    a.textContent = "↓" ∧ ∃ (k : Nat) (el : TaskEl), 1 ≤ k ∧
      ((emittedFrom tasks l i)[p + 1]?).bind Node.el? = some el ∧ el.dataIndex = k * cols := by
  induction l generalizing i p with
  | nil => simp [emittedFrom] at h
  | cons t l ih =>
    rw [emittedFrom, emitted_eq] at h ⊢
    by_cases hc : i % cols = 0 ∧ 0 < i / cols
    · simp only [hc, and_self, if_true, List.cons_append, List.nil_append] at h ⊢
      match p, h with
      | 0, h =>
        simp only [List.getElem?_cons_zero, Option.some.injEq, Node.arrow.injEq] at h
        subst h
        refine ⟨rfl, i / cols, elOf tasks t i, hc.2, by simp [taskNodeOf_el], ?_⟩
        show i = _
        have := Nat.div_add_mod i cols
        rw [hc.1] at this
        rw [Nat.mul_comm]; omega
      | 1, h =>
        simp only [List.getElem?_cons_succ, List.getElem?_cons_zero, Option.some.injEq] at h
        exact absurd h (taskNodeOf_ne_arrow _ _ _ _)
      | p + 2, h =>
        simp only [List.getElem?_cons_succ] at h ⊢
        exact ih (i + 1) p h
    · simp only [hc, if_false, List.nil_append, List.cons_append] at h ⊢
      match p, h with
      | 0, h =>
        simp only [List.getElem?_cons_zero, Option.some.injEq] at h
        exact absurd h (taskNodeOf_ne_arrow _ _ _ _)
      | p + 1, h =>
        simp only [List.getElem?_cons_succ] at h ⊢
        exact ih (i + 1) p h

theorem emittedFrom_row_start (tasks : List Task) (l : List Task) (i j : Nat)
    (hij : i ≤ j) (hj : j < i + l.length) (h0 : j % cols = 0) (h1 : 0 < j / cols) :
    ∃ (p : Nat) (a : ArrowEl) (el : TaskEl),
      (emittedFrom tasks l i)[p]? = some (Node.arrow a) ∧ a.textContent = "↓" ∧
      ((emittedFrom tasks l i)[p + 1]?).bind Node.el? = some el ∧ el.dataIndex = j := by
  induction l generalizing i with
  | nil => simp at hj; omega
  | cons t l ih =>
    rw [emittedFrom, emitted_eq]
    by_cases hji : j = i
    · subst hji
      refine ⟨0, downArrowOf j, elOf tasks t j, ?_, rfl, ?_, rfl⟩
      · simp [h0, h1]
      · simp [h0, h1, taskNodeOf_el]
    · obtain ⟨p, a, el, hp, ha, hp1, hel⟩ :=
        ih (i + 1) (by omega) (by simp only [List.length_cons] at hj; omega)
      by_cases hc : i % cols = 0 ∧ 0 < i / cols
      · exact ⟨p + 2, a, el, by simpa [hc] using hp, ha, by simpa [hc] using hp1, hel⟩
      · refine ⟨p + 1, a, el, ?_, ha, ?_, hel⟩
        · simp only [hc, if_false, List.nil_append, List.cons_append, List.getElem?_cons_succ]
          exact hp
        · simp only [hc, if_false, List.nil_append, List.cons_append, List.getElem?_cons_succ]
          exact hp1

/-- C6: for a non-empty task list rendered with `cols = 5`, the number of down arrows is
`ceil(length / cols) - 1`; every arrow appended directly to the container reads `↓` and
is immediately followed by the task element of an index `k * cols` with `k ≥ 1`, and
every such index has its down arrow immediately before it. -/
theorem render_vertical_connectors (T : List Task) (hT : T ≠ []) :
    ((downArrows (renderTasks T)).length : Int) = ⌈(T.length : ℚ) / (cols : ℚ)⌉ - 1 ∧
    (∀ (p : Nat) (a : ArrowEl), (renderTasks T)[p]? = some (Node.arrow a) →
      a.textContent = "↓" ∧ ∃ (k : Nat) (el : TaskEl), 1 ≤ k ∧
        ((renderTasks T)[p + 1]?).bind Node.el? = some el ∧ el.dataIndex = k * cols) ∧
    (∀ k : Nat, 1 ≤ k → k * cols < T.length →
      ∃ (p : Nat) (a : ArrowEl) (el : TaskEl),
        (renderTasks T)[p]? = some (Node.arrow a) ∧ a.textContent = "↓" ∧
        ((renderTasks T)[p + 1]?).bind Node.el? = some el ∧ el.dataIndex = k * cols) := by
  have hlen : 0 < T.length := List.length_pos.mpr hT
  refine ⟨?_, ?_, ?_⟩
  · rw [ceil_div_cols, renderTasks_eq]
    have h := downArrows_emittedFrom_length T T 0
    omega
  · intro p a h
    rw [renderTasks_eq] at h ⊢
    exact emittedFrom_arrow_followed T T 0 p a h
  · intro k hk hlt
    rw [renderTasks_eq]
    refine emittedFrom_row_start T T 0 (k * cols) (Nat.zero_le _) (by omega) (by simp) ?_
    rw [Nat.mul_div_cancel _ (by decide : 0 < cols)]
    exact hk

/-- Witness of C6 on a list of seven tasks: two rows, one down arrow, placed right
before the task of index 5. -/
theorem render_vertical_connectors_witness :
    (renderTasks ((List.range 7).map (fun i => (⟨i, "t", false⟩ : Task))))[5]?
        = some (Node.arrow ⟨["arrow", "down"], "↓"⟩) ∧
    ((downArrows (renderTasks ((List.range 7).map (fun i => (⟨i, "t", false⟩ : Task))))).length
        : Int)
      = ⌈(((List.range 7).map (fun i => (⟨i, "t", false⟩ : Task))).length : ℚ) / (cols : ℚ)⌉ - 1 :=
  ⟨by decide, (render_vertical_connectors
    ((List.range 7).map (fun i => (⟨i, "t", false⟩ : Task))) (by decide)).1⟩

/-! ### Horizontal connectors -/

theorem find?_emittedFrom (tasks : List Task) (l : List Task) (s i : Nat)
    (hs : s ≤ i) (hi : i < s + l.length) :
    ∃ t, l[i - s]? = some t ∧
      (emittedFrom tasks l s).find? (fun nd => (nd.el?.map TaskEl.dataIndex) == some i)
        = some (taskNodeOf tasks t i) := by
  induction l generalizing s with
  | nil => simp at hi; omega
  | cons t l ih =>
    rw [emittedFrom, emitted_eq]
    have harrow : ∀ (a : ArrowEl) (rest : List Node),
        (Node.arrow a :: rest).find? (fun nd => (nd.el?.map TaskEl.dataIndex) == some i)
          = rest.find? (fun nd => (nd.el?.map TaskEl.dataIndex) == some i) := by
      intro a rest
      simp [List.find?_cons, el?_arrow]
    have hnode : (((taskNodeOf tasks t s).el?.map TaskEl.dataIndex) == some i) = (s == i) := by
      rw [taskNodeOf_el]
      simp [elOf]
    by_cases hsi : s = i
    · subst hsi
      refine ⟨t, by simp, ?_⟩
      split
      · rw [List.append_assoc, List.singleton_append, harrow, List.singleton_append,
          List.find?_cons, hnode]
        simp
      · rw [List.nil_append, List.singleton_append, List.find?_cons, hnode]
        simp
    · obtain ⟨u, hu, hfind⟩ := ih (s + 1) (by omega) (by simp only [List.length_cons] at hi; omega)
      refine ⟨u, ?_, ?_⟩
      · have : i - s = (i - (s + 1)) + 1 := by omega
        rw [this, List.getElem?_cons_succ]
        exact hu
      · split
        · rw [List.append_assoc, List.singleton_append, harrow, List.singleton_append,
            List.find?_cons, hnode]
          rw [show (s == i) = false from by simpa using hsi]
          exact hfind
        · rw [List.nil_append, List.singleton_append, List.find?_cons, hnode]
          rw [show (s == i) = false from by simpa using hsi]
          exact hfind

theorem horizontalArrows_append (xs ys : List Node) :
    horizontalArrows (xs ++ ys) = horizontalArrows xs ++ horizontalArrows ys := by
  simp [horizontalArrows, List.filterMap_append]

theorem horizontalArrows_emittedFrom_single_row (tasks : List Task) (l : List Task) (s : Nat)
    (hs : s + l.length = tasks.length) (hn : tasks.length ≤ 5) :
    horizontalArrows (emittedFrom tasks l s) = List.replicate (l.length - 1) "→" := by
  induction l generalizing s with
  | nil => simp [emittedFrom, horizontalArrows]
  | cons t l ih =>
    simp only [List.length_cons] at hs
    have hrow : s / cols = 0 := by simp only [cols]; omega
    have hmod : s % cols = s := by simp only [cols]; omega
    rw [emittedFrom, emitted_eq, horizontalArrows_append, ih (s + 1) (by omega)]
    have h0 : ¬ (s % cols = 0 ∧ 0 < s / cols) := by rw [hrow]; simp
    rw [if_neg h0, List.nil_append]
    unfold taskNodeOf
    cases l with
    | nil =>
      have : (s : Int) = (tasks.length : Int) - 1 := by simp only [List.length_nil] at hs; omega
      simp [this, horizontalArrows, List.filterMap_cons]
    | cons u l =>
      have h1 : ¬ (s % cols = cols - 1 ∨ (s : Int) = (tasks.length : Int) - 1) := by
        simp only [List.length_cons] at hs
        rw [hmod]; simp only [cols]; omega
      rw [if_neg h1]
      simp [horizontalArrows, List.filterMap_cons, hrow, List.replicate_succ]

/-- C7: the task element of index `i` is followed by a horizontal connector iff
`i mod 5 ≠ 4` and `i ≠ length - 1`, reading `→` on even rows and `←` on odd rows; a list
of `1 ≤ n ≤ 5` tasks gives no vertical connector and exactly `n - 1` connectors, all `→`. -/
theorem render_horizontal_connectors (T : List Task) :
    (∀ i : Nat, i < T.length →
      horizontalAfter (renderTasks T) i =
        if i % 5 ≠ 4 ∧ i ≠ T.length - 1 then
          some (if (i / 5) % 2 = 0 then "→" else "←")
        else none) ∧
    (1 ≤ T.length → T.length ≤ 5 →
      downArrows (renderTasks T) = [] ∧
      horizontalArrows (renderTasks T) = List.replicate (T.length - 1) "→") := by
  constructor
  · intro i hi
    obtain ⟨t, _, hfind⟩ := find?_emittedFrom T T 0 i (Nat.zero_le _) (by omega)
    unfold horizontalAfter
    rw [renderTasks_eq, hfind]
    unfold taskNodeOf
    have hint : ((i : Int) = (T.length : Int) - 1) ↔ i = T.length - 1 := by omega
    by_cases h1 : i % cols = cols - 1 ∨ (i : Int) = (T.length : Int) - 1
    · rw [if_pos h1]
      have : ¬ (i % 5 ≠ 4 ∧ i ≠ T.length - 1) := by
        rw [hint] at h1; simp only [cols] at h1; omega
      rw [if_neg this]
    · rw [if_neg h1]
      have : i % 5 ≠ 4 ∧ i ≠ T.length - 1 := by
        rw [hint] at h1; simp only [cols] at h1; omega
      rw [if_pos this]
      simp only [cols]
      by_cases h2 : i / 5 % 2 = 0
      · have h3 : ¬ (i / 5 % 2 = 1) := by omega
        simp [h2]
      · have h3 : i / 5 % 2 = 1 := by omega
        simp [h3]
  · intro h1 h5
    constructor
    · have h := downArrows_emittedFrom_length T T 0
      rw [renderTasks_eq]
      apply List.eq_nil_of_length_eq_zero
      omega
    · rw [renderTasks_eq]
      exact horizontalArrows_emittedFrom_single_row T T 0 (by omega) h5

/-- Witness of C7 on `[A(done), B(undone), C(undone)]`: a single row with no vertical
connector, two connectors `→`, and `B` marked current. -/
theorem render_horizontal_connectors_witness :
    (taskEls (renderTasks [⟨1, "A", true⟩, ⟨2, "B", false⟩, ⟨3, "C", false⟩])).map
        TaskEl.isCurrent = [false, true, false] ∧
    downArrows (renderTasks [⟨1, "A", true⟩, ⟨2, "B", false⟩, ⟨3, "C", false⟩]) = [] ∧
    horizontalArrows (renderTasks [⟨1, "A", true⟩, ⟨2, "B", false⟩, ⟨3, "C", false⟩])
      = ["→", "→"] :=
  ⟨by decide,
   (render_horizontal_connectors [⟨1, "A", true⟩, ⟨2, "B", false⟩, ⟨3, "C", false⟩]).2
     (by decide) (by decide)⟩

/-! ## Lemmas on the reorder -/

theorem insertIdx_eq_take_drop {β : Type} (a : β) (l : List β) (n : Nat) (h : n ≤ l.length) :
    l.insertIdx n a = l.take n ++ a :: l.drop n := by
  induction n generalizing l with
  | zero => simp
  | succ n ih =>
    cases l with
    | nil => simp at h
    | cons b l =>
      simp only [List.insertIdx_succ_cons, List.take_succ_cons, List.drop_succ_cons,
        List.cons_append]
      rw [ih l (by simpa using h)]

theorem splice_remove_one {β : Type} (arr : List β) (i : Nat) (h : i < arr.length) :
    splice arr (i : Int) 1 [] = ([arr[i]], arr.eraseIdx i) := by
  unfold splice
  have h1 : (if (i : Int) < 0 then max ((arr.length : Int) + i) 0 else min (i : Int) arr.length)
      = (i : Int) := by
    rw [if_neg (by omega)]; omega
  simp only [h1, Int.toNat_ofNat]
  have h2 : min (max (1 : Int) 0) ((arr.length : Int) - i) = 1 := by omega
  simp only [h2, List.append_nil]
  have h3 : (1 : Int).toNat = 1 := rfl
  rw [h3]
  refine Prod.ext ?_ ?_
  · show List.take 1 (List.drop i arr) = [arr[i]]
    rw [List.drop_eq_getElem_cons h]; rfl
  · show List.take i arr ++ List.drop (i + 1) arr = arr.eraseIdx i
    rw [List.eraseIdx_eq_take_drop_succ]

theorem splice_insert_one {β : Type} (arr : List β) (j : Nat) (a : β) (h : j ≤ arr.length) :
    (splice arr (j : Int) 0 [a]).2 = arr.insertIdx j a := by
  unfold splice
  have h1 : (if (j : Int) < 0 then max ((arr.length : Int) + j) 0 else min (j : Int) arr.length)
      = (j : Int) := by
    rw [if_neg (by omega)]; omega
  simp only [h1, Int.toNat_ofNat]
  have h2 : min (max (0 : Int) 0) ((arr.length : Int) - j) = 0 := by omega
  simp only [h2]
  rw [insertIdx_eq_take_drop a arr j h]
  simp

theorem dropHandler_move {α : Type} (T : List (Option α)) (i j : Nat)
    (hi : i < T.length) (hj : j < T.length) (hij : i ≠ j) :
    dropHandler T (some (i : Int)) (j : Int) = (T.eraseIdx i).insertIdx j T[i] := by
  unfold dropHandler
  have hne : (i : Int) ≠ (j : Int) := by exact_mod_cast hij
  simp only [hne, ne_eq, not_false_eq_true, if_true]
  rw [splice_remove_one T i hi]
  simp only [List.head?_cons, Option.getD_some]
  apply splice_insert_one
  rw [List.length_eraseIdx_of_lt hi]; omega


theorem perm_cons_eraseIdx {β : Type} (l : List β) (i : Nat) (h : i < l.length) :
    l.Perm (l[i] :: l.eraseIdx i) := by
  have h1 : l = l.take i ++ l[i] :: l.drop (i + 1) := by
    rw [← List.drop_eq_getElem_cons h, List.take_append_drop]
  rw [List.eraseIdx_eq_take_drop_succ]
  conv => lhs; rw [h1]
  exact List.perm_middle

/-- C2: dropping the task dragged from index `i` onto index `j ≠ i` (both in range)
moves one element: the result is the list with the element at `i` removed and inserted
at position `j` of what remains; it holds the dragged element at `j`, and erasing that
position gives back the other elements in their original order. -/
theorem dropHandler_single_move (T : List (Option Task)) (i j : Nat)
    (hi : i < T.length) (hj : j < T.length) (hij : i ≠ j) :
    dropHandler T (dragstart i) j = (T.eraseIdx i).insertIdx j T[i] ∧
    (dropHandler T (dragstart i) j)[j]? = some T[i] ∧
    (dropHandler T (dragstart i) j).eraseIdx j = T.eraseIdx i := by
  have hmove := dropHandler_move T i j hi hj hij
  have hlen : j ≤ (T.eraseIdx i).length := by
    rw [List.length_eraseIdx_of_lt hi]; omega
  unfold dragstart
  refine ⟨hmove, ?_, ?_⟩
  · rw [hmove, insertIdx_eq_take_drop _ _ _ hlen,
      List.getElem?_append_right (by simp [List.length_take])]
    have : j - (List.take j (T.eraseIdx i)).length = 0 := by
      simp [List.length_take]; omega
    rw [this]; simp
  · rw [hmove, List.eraseIdx_insertIdx]

/-- Witness of C2: dragging `a` (index 0) onto index 2 of `[a, b, c]` gives `[b, c, a]`,
a move and not the swap `[c, b, a]`. -/
theorem dropHandler_single_move_witness :
    dropHandler [some (⟨1, "a", false⟩ : Task), some ⟨2, "b", false⟩, some ⟨3, "c", false⟩]
        (dragstart 0) 2
      = [some ⟨2, "b", false⟩, some ⟨3, "c", false⟩, some ⟨1, "a", false⟩] :=
  (dropHandler_single_move
    [some (⟨1, "a", false⟩ : Task), some ⟨2, "b", false⟩, some ⟨3, "c", false⟩] 0 2
    (by decide) (by decide) (by decide)).1

/-- C3: for source and target indices in range, the drop handler keeps the length of
the task list and returns a permutation of it; in particular the multiset of task ids
is unchanged. -/
theorem dropHandler_perm (T : List (Option Task)) (i j : Nat)
    (hi : i < T.length) (hj : j < T.length) :
    (dropHandler T (dragstart i) j).length = T.length ∧
    (dropHandler T (dragstart i) j).Perm T ∧
    ((dropHandler T (dragstart i) j).map (Option.map Task.id)).Perm
      (T.map (Option.map Task.id)) := by
  have hperm : (dropHandler T (dragstart i) j).Perm T := by
    by_cases hij : i = j
    · subst hij
      simp [dropHandler, dragstart]
    · have hlen : j ≤ (T.eraseIdx i).length := by
        rw [List.length_eraseIdx_of_lt hi]; omega
      unfold dragstart
      rw [dropHandler_move T i j hi hj hij]
      exact (List.perm_insertIdx _ _ hlen).trans (perm_cons_eraseIdx T i hi).symm
  exact ⟨hperm.length_eq, hperm, hperm.map _⟩

/-- Witness of C3 on `[a, b, c]` with source 2 and target 0. -/
theorem dropHandler_perm_witness :
    (dropHandler [some (⟨1, "a", false⟩ : Task), some ⟨2, "b", false⟩, some ⟨3, "c", false⟩]
        (dragstart 2) 0).length = 3 :=
  (dropHandler_perm
    [some (⟨1, "a", false⟩ : Task), some ⟨2, "b", false⟩, some ⟨3, "c", false⟩] 2 0
    (by decide) (by decide)).1

theorem dropHandler_none {α : Type} (T : List (Option α)) (index : Int) :
    dropHandler T none index = T := rfl

theorem dropHandler_self {α : Type} (T : List (Option α)) (index : Int) :
    dropHandler T (some index) index = T := by
  simp [dropHandler]

theorem dropHandler_length_in_range {α : Type} (T : List (Option α)) (s : Int) (j : Nat)
    (h0 : 0 ≤ s) (hs : s < (T.length : Int)) (hj : j < T.length) :
    (dropHandler T (some s) j).length = T.length := by
  obtain ⟨i, rfl⟩ := Int.eq_ofNat_of_zero_le h0
  have hi : i < T.length := by exact_mod_cast hs
  by_cases hij : i = j
  · subst hij
    rw [dropHandler_self]
  · rw [dropHandler_move T i j hi hj hij, List.length_insertIdx,
      List.length_eraseIdx_of_lt hi]
    · omega
    · rw [List.length_eraseIdx_of_lt hi]; omega

/-- The handler itself checks no range: called directly with an index outside the
list, the two `splice` calls clamp it and the list changes. -/
theorem dropHandler_checks_no_range :
    dropHandler [some (⟨1, "a", false⟩ : Task), some ⟨2, "b", false⟩, some ⟨3, "c", false⟩]
        (some (-1)) 0
      = [some ⟨3, "c", false⟩, some ⟨1, "a", false⟩, some ⟨2, "b", false⟩] ∧
    dropHandler [some (⟨1, "a", false⟩ : Task), some ⟨2, "b", false⟩, some ⟨3, "c", false⟩]
        (some 3) 0
      = [none, some ⟨1, "a", false⟩, some ⟨2, "b", false⟩, some ⟨3, "c", false⟩] := by
  decide

theorem step_indexInRange (st : DragState) (e : DragEvent) (hinv : st.IndexInRange)
    (he : e.enabled st = true) : (st.step e).IndexInRange := by
  obtain ⟨hnull, hrange⟩ := hinv
  cases e with
  | dragstart index =>
    simp only [DragEvent.enabled, Bool.and_eq_true, decide_eq_true_eq] at he
    refine ⟨fun h => by simp [DragState.step] at h, ?_⟩
    intro s hs
    simp only [DragState.step, dragstart, Option.some.injEq] at hs
    subst hs
    simp only [DragState.step]
    omega
  | drop index =>
    simp only [DragEvent.enabled, decide_eq_true_eq] at he
    refine ⟨fun h => hnull h, ?_⟩
    intro s hs
    have hs2 : st.draggedIndex = some s := hs
    obtain ⟨h0, h1⟩ := hrange s hs2
    simp only [DragState.step, hs2]
    rw [dropHandler_length_in_range st.tasks s index h0 h1 he]
    exact ⟨h0, h1⟩
  | dragend =>
    refine ⟨fun _ => rfl, ?_⟩
    intro s hs
    simp [DragState.step, dragend] at hs
  | other tasks =>
    simp only [DragEvent.enabled, Bool.not_eq_true'] at he
    have hn := hnull he
    refine ⟨fun _ => hn, ?_⟩
    intro s hs
    have hs2 : st.draggedIndex = some s := hs
    rw [hn] at hs2
    exact absurd hs2 (by simp)

theorem run_indexInRange (st : DragState) (events : List DragEvent) (st2 : DragState)
    (hinv : st.IndexInRange) (hrun : st.run events = some st2) : st2.IndexInRange := by
  induction events generalizing st with
  | nil =>
    simp only [DragState.run, Option.some.injEq] at hrun
    subst hrun
    exact hinv
  | cons e es ih =>
    simp only [DragState.run] at hrun
    by_cases he : e.enabled st = true
    · rw [if_pos he] at hrun
      exact ih (st.step e) (step_indexInRange st e hinv he) hrun
    · rw [if_neg he] at hrun
      exact absurd hrun (by simp)

theorem initial_indexInRange (tasks : List (Option Task)) :
    (DragState.initial tasks).IndexInRange :=
  ⟨fun _ => rfl, fun s hs => by simp [DragState.initial] at hs⟩

/-- C4: in every state the drag events lead to, a drop on a rendered task element meets
a target index in range and a `draggedIndex` that is `null` or in range; when
`draggedIndex` is `null`, or equals the target, or either index is out of range, the
handler leaves the task list unchanged. At the level of the handler, for every list and
every integer index, a `null` `draggedIndex` (as initially and after `dragend`) and a
drop of a task onto itself return the list unchanged. -/
theorem drop_invalid_noop (tasks0 : List (Option Task)) (events : List DragEvent)
    (st : DragState) (hrun : (DragState.initial tasks0).run events = some st)
    (index : Nat) (hdrop : (DragEvent.drop index).enabled st = true) :
    ((index : Int) < (st.tasks.length : Int) ∧
      ∀ s : Int, st.draggedIndex = some s → 0 ≤ s ∧ s < (st.tasks.length : Int)) ∧
    ((st.draggedIndex = none ∨ st.draggedIndex = some (index : Int) ∨
        (∃ s : Int, st.draggedIndex = some s ∧ (s < 0 ∨ (st.tasks.length : Int) ≤ s)) ∨
        (st.tasks.length : Int) ≤ (index : Int)) →
      (st.step (.drop index)).tasks = st.tasks) ∧
    (∀ (T : List (Option Task)) (t : Int),
      dropHandler T none t = T ∧ dropHandler T dragend t = T ∧
      dropHandler T (dragstart t) t = T) := by
  have hinv := run_indexInRange _ events st (initial_indexInRange tasks0) hrun
  have hidx : index < st.tasks.length := by
    simpa [DragEvent.enabled] using hdrop
  refine ⟨⟨by exact_mod_cast hidx, hinv.2⟩, ?_, ?_⟩
  · intro h
    show dropHandler st.tasks st.draggedIndex index = st.tasks
    rcases h with h | h | ⟨s, hs, hout⟩ | h
    · rw [h]; rfl
    · rw [h, dropHandler_self]
    · have := hinv.2 s hs
      omega
    · omega
  · intro T t
    exact ⟨rfl, rfl, dropHandler_self T t⟩

/-- Witness of C4: after `dragstart` on the element of index 1 of `[a, b, c]`, dropping
it onto itself leaves the list unchanged. -/
theorem drop_invalid_noop_witness :
    ((⟨[some (⟨1, "a", false⟩ : Task), some ⟨2, "b", false⟩, some ⟨3, "c", false⟩],
        some 1, true⟩ : DragState).step (.drop 1)).tasks
      = [some (⟨1, "a", false⟩ : Task), some ⟨2, "b", false⟩, some ⟨3, "c", false⟩] :=
  (drop_invalid_noop
    [some (⟨1, "a", false⟩ : Task), some ⟨2, "b", false⟩, some ⟨3, "c", false⟩]
    [.dragstart 1]
    ⟨[some (⟨1, "a", false⟩ : Task), some ⟨2, "b", false⟩, some ⟨3, "c", false⟩], some 1, true⟩
    (by decide) 1 (by decide)).2.1 (Or.inr (Or.inl rfl))

/-! ## Project deletion -/

/-- C5 fails on the code: two projects created at the same clock reading share their
id; `handleDeleteProject`, confirmed, filters both out, leaves the collection empty and
throws on `projects[0].id`, although its guard and alert exist to keep one project. -/
theorem handleDeleteProject_shared_id_empties :
    (createProject (createProject ⟨[], 0⟩ "新規プロジェクト" 1000) "新規プロジェクト" 1000).projects
        ≠ [] ∧
    (handleDeleteProject
        (createProject (createProject ⟨[], 0⟩ "新規プロジェクト" 1000) "新規プロジェクト" 1000)
        true).state.projects = [] ∧
    (handleDeleteProject
        (createProject (createProject ⟨[], 0⟩ "新規プロジェクト" 1000) "新規プロジェクト" 1000)
        true).threw = true := by
  decide

theorem handleDeleteProject_keeps_nonempty (s : AppState) (confirmAnswer : Bool)
    (hne : s.projects ≠ [])
    (hother : s.projects.length ≤ 1 ∨ ∃ p ∈ s.projects, p.id ≠ s.currentProjectId) :
    (handleDeleteProject s confirmAnswer).state.projects ≠ [] ∧
    (handleDeleteProject s confirmAnswer).threw = false ∧
    (s.projects.length = 1 →
      (handleDeleteProject s confirmAnswer).state = s ∧
      (handleDeleteProject s confirmAnswer).alert = some "最後のプロジェクトは削除できません") := by
  unfold handleDeleteProject
  by_cases h1 : s.projects.length ≤ 1
  · rw [if_pos h1]
    exact ⟨hne, rfl, fun _ => ⟨rfl, rfl⟩⟩
  · rw [if_neg h1]
    cases confirmAnswer with
    | false =>
      rw [if_pos (by decide : (!false) = true)]
      exact ⟨hne, rfl, fun h => absurd (by omega) h1⟩
    | true =>
      rw [if_neg (by decide : ¬ (!true) = true)]
      have hfilter : s.projects.filter (fun p => p.id != s.currentProjectId) ≠ [] := by
        rcases hother with h | ⟨p, hp, hid⟩
        · exact absurd h h1
        · intro hnil
          rw [List.filter_eq_nil_iff] at hnil
          have := hnil p hp
          simp only [bne_iff_ne, ne_eq, Decidable.not_not] at this
          exact hid this
      obtain ⟨p, rest, heq⟩ := List.exists_cons_of_ne_nil hfilter
      rw [heq]
      exact ⟨List.cons_ne_nil _ _, rfl, fun h => absurd (by omega) h1⟩

theorem handleDeleteProject_keeps_nonempty_example :
    (handleDeleteProject ⟨[⟨1, "A", none, []⟩, ⟨1, "B", none, []⟩, ⟨2, "C", none, []⟩], 1⟩
        true).state.projects ≠ [] :=
  (handleDeleteProject_keeps_nonempty
    ⟨[⟨1, "A", none, []⟩, ⟨1, "B", none, []⟩, ⟨2, "C", none, []⟩], 1⟩ true (by decide)
    (Or.inr ⟨⟨2, "C", none, []⟩, by decide, by decide⟩)).1

/-! ## Task submission and editing -/

theorem find?_updateFirst {α : Type} (p : α → Bool) (f : α → α) (hf : ∀ a, p (f a) = p a)
    (l : List α) : (updateFirst p f l).find? p = (l.find? p).map f := by
  induction l with
  | nil => rfl
  | cons a l ih =>
    by_cases ha : p a = true
    · simp [updateFirst, ha, List.find?_cons, hf]
    · simp only [Bool.not_eq_true] at ha
      simp [updateFirst, ha, List.find?_cons, ih]

theorem handleSubmit_pushes (s : AppState) (v : String) (now : Int) (p : Project)
    (hcur : getCurrentProject s = some p) :
    getCurrentProject (handleSubmit s v now)
      = some { p with tasks := p.tasks ++ [{ id := now, title := jsTrim v, done := false }] } := by
  unfold handleSubmit
  rw [hcur]
  unfold getCurrentProject at hcur ⊢
  simp only []
  rw [find?_updateFirst, hcur]
  · rfl
  · intro a; rfl

theorem editTask_blank_unchanged (s : AppState) (id : Int) (answer : Option String)
    (h : answer = none ∨ ∃ t, answer = some t ∧ jsTrim t = "") :
    editTask s id answer = s := by
  unfold editTask
  rcases h with rfl | ⟨t, rfl, ht⟩
  · split
    · rfl
    · split <;> rfl
  · split
    · rfl
    · split
      · rfl
      · simp [ht]

/-- C9 fails on `handleSubmit`: a whitespace-only input is trimmed to the empty string
and a task with that empty title is pushed; `editTask` on the same blank answer leaves
the state unchanged. -/
theorem handleSubmit_blank_title_pushed :
    jsTrim "   " = "" ∧
    handleSubmit ⟨[⟨1, "P", none, [⟨5, "write", false⟩]⟩], 1⟩ "   " 1700000000000
      = ⟨[⟨1, "P", none, [⟨5, "write", false⟩, ⟨1700000000000, "", false⟩]⟩], 1⟩ ∧
    editTask ⟨[⟨1, "P", none, [⟨5, "write", false⟩]⟩], 1⟩ 5 (some "   ")
      = ⟨[⟨1, "P", none, [⟨5, "write", false⟩]⟩], 1⟩ := by
  decide

/-! ## Freshly minted ids -/

/-- C10 as stated fails: the id is the clock reading itself, so a project or a task
created at a reading equal to an id already present duplicates that id. -/
theorem same_clock_reading_duplicates_id :
    ((createProject ⟨[], 0⟩ "A" 1000).projects.map Project.id).Nodup ∧
    ¬ ((createProject (createProject ⟨[], 0⟩ "A" 1000) "B" 1000).projects.map
        Project.id).Nodup ∧
    (getCurrentProject
        (handleSubmit (handleSubmit (createProject ⟨[], 0⟩ "A" 1000) "x" 2000) "y" 2000)).map
        (fun p => p.tasks.map Task.id) = some [2000, 2000] := by
  decide

/-- C10, amended: when the clock reading differs from every project id present,
`createProject` keeps the project ids pairwise distinct; when it differs from every task
id of the active project, `handleSubmit` appends one task to that project and keeps its
task ids pairwise distinct. -/
theorem fresh_id_distinct (s : AppState) (name v : String) (now : Int) :
    ((s.projects.map Project.id).Nodup → now ∉ s.projects.map Project.id →
      ((createProject s name now).projects.map Project.id).Nodup) ∧
    (∀ p : Project, getCurrentProject s = some p →
      (p.tasks.map Task.id).Nodup → now ∉ p.tasks.map Task.id →
      ∃ q : Project, getCurrentProject (handleSubmit s v now) = some q ∧
        q.tasks = p.tasks ++ [{ id := now, title := jsTrim v, done := false }] ∧
        (q.tasks.map Task.id).Nodup) := by
  constructor
  · intro hnd hnow
    simp only [createProject, List.map_append, List.map_cons, List.map_nil]
    rw [List.nodup_append]
    refine ⟨hnd, by simp, ?_⟩
    intro a ha hb
    simp only [List.mem_singleton] at hb
    subst hb
    exact hnow ha
  · intro p hcur hnd hnow
    refine ⟨_, handleSubmit_pushes s v now p hcur, rfl, ?_⟩
    simp only [List.map_append, List.map_cons, List.map_nil]
    rw [List.nodup_append]
    refine ⟨hnd, by simp, ?_⟩
    intro a ha hb
    simp only [List.mem_singleton] at hb
    subst hb
    exact hnow ha

/-- Witness of C10: a second project created at a later clock reading. -/
theorem fresh_id_distinct_witness :
    ((createProject (createProject ⟨[], 0⟩ "A" 1000) "B" 1001).projects.map Project.id).Nodup :=
  (fresh_id_distinct (createProject ⟨[], 0⟩ "A" 1000) "B" "" 1001).1 (by decide) (by decide)

/-! ## Deadline countdown -/

theorem diffDays_of_offset (deadline : CivilDate) (now tz k : Int)
    (hk : daysFromCivil deadline = (now + tz) / msPerDay + k) :
    (-msPerDay < tz → tz ≤ 0 → diffDays deadline now (fixedZone tz) = k) ∧
    (0 < tz → tz ≤ msPerDay → diffDays deadline now (fixedZone tz) = k + 1) := by
  unfold diffDays dateParse setHoursZero ceilDiv fixedZone
  simp only []
  rw [hk]
  have hD : msPerDay = 86400000 := by decide
  rw [hD]
  generalize (now + tz) / 86400000 = L
  constructor
  · intro h1 h2; omega
  · intro h1 h2; omega

/-- On a day the offset changes, local midnight is taken with the offset in force at
midnight: at noon of 2024-03-31 in a zone that moves from UTC to UTC+1 at 01:00 UTC
that day, the deadline 2024-03-31 is due today. -/
theorem updateDaysLeft_offset_change_day :
    updateDaysLeft ⟨[⟨1, "P", some ⟨2024, 3, 31⟩, []⟩], 1⟩ 1711882800000
        { offsetAtUtc := fun t => if 1711846800000 ≤ t then 3600000 else 0,
          offsetAtLocal := fun u => if 1711846800000 ≤ u then 3600000 else 0 }
      = ⟨.today, ["days-left", "urgent"]⟩ := by
  decide

/-- C8 fails east of UTC: at noon of 2024-01-10 in a zone nine hours ahead of UTC, the
deadline 2024-01-10 (today, `k = 0`) gives `diffDays = 1` and the text of one day left
instead of the due-today text, and the deadline 2024-01-09 (yesterday) gives the
due-today text instead of one day overdue. -/
theorem updateDaysLeft_east_of_utc_off_by_one :
    (1704855600000 + 32400000) / msPerDay = daysFromCivil ⟨2024, 1, 10⟩ ∧
    diffDays ⟨2024, 1, 10⟩ 1704855600000 (fixedZone 32400000) = 1 ∧
    updateDaysLeft ⟨[⟨1, "P", some ⟨2024, 1, 10⟩, []⟩], 1⟩ 1704855600000 (fixedZone 32400000)
      = ⟨.remaining 1, ["days-left", "warning"]⟩ ∧
    updateDaysLeft ⟨[⟨1, "P", some ⟨2024, 1, 9⟩, []⟩], 1⟩ 1704855600000 (fixedZone 32400000)
      = ⟨.today, ["days-left", "urgent"]⟩ := by
  decide

end Roadmap
